import Mathlib

/-!
Verification of the Neet boolean-network core: state codec, the three
network-model variants (logic table, weight-threshold, transition table),
exhaustive attractor finding over the successor table, and the
control-kernel search.  The library code itself is not part of the
repository snapshot (only the example notebook is), so the operations are
modelled from the specification, with every free choice (bit order, weight
orientation, tie rule) pinned by the outputs recorded in
`examples/neet-network-example.ipynb`.
-/

namespace Neet

/-- Modelled from the spec: `StateCodec.encode` (source module not in the
snapshot).  A state is a list of bits, node 0 first; node `i` contributes
`2^i`, i.e. node 0 is the least-significant bit.  This bit order is the one
consistent with the notebook's recorded encodings (fixed points `[0,0,1]`
and `[1,0,1]` of the weight-threshold example print as `4` and `5`). -/
def encode : List Nat → Nat
  | [] => 0
  | b :: rest => b + 2 * encode rest

/-- Modelled from the spec: `StateCodec.decode` (source module not in the
snapshot), the inverse of `encode`: `decode c n` is the length-`n` bit list
of `c`, least-significant bit first. -/
def decode : Nat → Nat → List Nat
  | _, 0 => []
  | c, n + 1 => c % 2 :: decode (c / 2) n

theorem decode_length (c n : Nat) : (decode c n).length = n := by
  induction n generalizing c with
  | zero => rfl
  | succ n ih => simpa [decode] using ih (c / 2)

theorem decode_bits_lt (c n : Nat) : ∀ b ∈ decode c n, b < 2 := by
  induction n generalizing c with
  | zero => intro b hb; simp [decode] at hb
  | succ n ih =>
    intro b hb
    simp only [decode, List.mem_cons] at hb
    rcases hb with h | h
    · omega
    · exact ih (c / 2) b h

theorem encode_lt (s : List Nat) (hb : ∀ b ∈ s, b < 2) :
    encode s < 2 ^ s.length := by
  induction s with
  | nil => simp [encode]
  | cons b rest ih =>
    have hb2 : b < 2 := hb b (List.mem_cons_self _ _)
    have hr : encode rest < 2 ^ rest.length :=
      ih fun x hx => hb x (List.mem_cons_of_mem _ hx)
    simp only [encode, List.length_cons, pow_succ]
    omega

theorem encode_decode (n c : Nat) (hc : c < 2 ^ n) :
    encode (decode c n) = c := by
  induction n generalizing c with
  | zero =>
    interval_cases c
    rfl
  | succ n ih =>
    have hdiv : c / 2 < 2 ^ n := by
      have : c < 2 * 2 ^ n := by rw [two_mul]; omega
      omega
    simp only [decode, encode, ih (c / 2) hdiv]
    omega

theorem decode_encode (s : List Nat) (hb : ∀ b ∈ s, b < 2) :
    decode (encode s) s.length = s := by
  induction s with
  | nil => rfl
  | cons b rest ih =>
    have hb2 : b < 2 := hb b (List.mem_cons_self _ _)
    have ihr : decode (encode rest) rest.length = rest :=
      ih fun x hx => hb x (List.mem_cons_of_mem _ hx)
    have hmod : (b + 2 * encode rest) % 2 = b := by omega
    have hdiv : (b + 2 * encode rest) / 2 = encode rest := by omega
    simp [decode, encode, hmod, hdiv, ihr]

/-- Modelled from the spec: `boolean.LogicNetwork` (source module not in
the snapshot).  Each table row lists one node's input-node indices, in
order, together with the accepted input-value combinations; a combination
`"01"` is modelled as the bit list `[0, 1]`. -/
structure LogicNetwork where
  table : List (List Nat × List (List Nat))

/-- Modelled from the spec: `LogicNetwork.update` — node `j` becomes
active exactly when the tuple of its declared inputs' current values, in
declared order, is one of the accepted combinations of row `j`. -/
def LogicNetwork.update (net : LogicNetwork) (s : List Nat) : List Nat :=
  net.table.map fun row =>
    if row.1.map (fun i => s.getD i 0) ∈ row.2 then 1 else 0

/-- The logic network of scenario 1 in the notebook:
`[((1,2),{"00","01"}), ((0,1),{"11"}), ((1,),{"0"})]`. -/
def net1 : LogicNetwork :=
  ⟨[([1, 2], [[0, 0], [0, 1]]), ([0, 1], [[1, 1]]), ([1], [[0]])]⟩

/-- Modelled from the spec: `boolean.WTNetwork` (source module not in the
snapshot): an N×N integer weight matrix and an N-length threshold
vector. -/
structure WTNetwork where
  weights : List (List Int)
  thresholds : List Int

/-- The signal arriving at one node: the weight row paired pointwise with
the current state. -/
def wtSum (row : List Int) (s : List Nat) : Int :=
  (List.zipWith (fun w b => w * (b : Int)) row s).sum

/-- Modelled from the spec: `WTNetwork.update` (source module not in the
snapshot).  Node `j` compares `Σ_i weights[j][i]·state[i]` against
`thresholds[j]`: strictly above the threshold it becomes 1, strictly below
it becomes 0, and on a tie it keeps its current value.  The row (not
column) orientation of the weight matrix and the keep-value tie rule are
the unique combination reproducing the notebook's recorded output
`net2.update([0,0,1]) = [0,0,1]`. -/
def WTNetwork.update (net : WTNetwork) (s : List Nat) : List Nat :=
  (List.range net.thresholds.length).map fun j =>
    let a := wtSum (net.weights.getD j []) s
    let th := net.thresholds.getD j 0
    if th < a then 1 else if a < th then 0 else s.getD j 0

/-- The weight-threshold network of scenario 2 in the notebook:
weights `[[0,2,1],[1,5,-2],[0,1,0]]`, thresholds `[1,-1,0]`. -/
def net2 : WTNetwork :=
  ⟨[[0, 2, 1], [1, 5, -2], [0, 1, 0]], [1, -1, 0]⟩

/-- Modelled from the spec: `TransitionNetwork` (source module not in the
snapshot) — an explicit successor table over the `2^size` state codes. -/
structure TransitionNetwork where
  size : Nat
  transitions : List Nat
  deriving DecidableEq

/-- Modelled from the spec: `TransitionNetwork.update` — direct table
lookup by encoded state. -/
def TransitionNetwork.update (net : TransitionNetwork) (s : List Nat) : List Nat :=
  decode (net.transitions.getD (encode s) 0) net.size

/-- Modelled from the spec: the error taxonomy of §7. -/
inductive NeetError where
  | validationError
  | rangeError
  | resourceLimitError
  deriving DecidableEq

/-- Modelled from the spec: `transitions_to_net` (source module not in the
snapshot) — infers the node count as `log2` of the list length, validates
that the length is an exact power of two and that every entry is an
in-range state code, and wraps the list as a `TransitionNetwork`;
otherwise it fails with a `ValidationError` before any update runs. -/
def transitions_to_net (l : List Nat) : Except NeetError TransitionNetwork :=
  match (List.range (l.length + 1)).find? (fun n => 2 ^ n == l.length) with
  | some n =>
    if ∀ x ∈ l, x < l.length then Except.ok ⟨n, l⟩
    else Except.error NeetError.validationError
  | none => Except.error NeetError.validationError

/-- The transition network of scenario 3 in the notebook, built from the
transition list `[0,1,2,3,0,1,2,3]`. -/
def net3 : TransitionNetwork := ⟨3, [0, 1, 2, 3, 0, 1, 2, 3]⟩

/-- One step of the successor table: the table entry at the current state
code (out-of-range codes read the default 0, which never occurs on valid
tables). -/
def fstep (t : List Nat) (c : Nat) : Nat := t.getD c 0

/-- The period of the cycle through `x`: the least `p ≥ 1` with
`fstep^[p] x = x`, or 0 when `x` is not a cyclic state. -/
def periodOf (t : List Nat) (x : Nat) : Nat :=
  match (List.range t.length).find? (fun k => (fstep t)^[k + 1] x == x) with
  | some k => k + 1
  | none => 0

/-- The cycle through a cyclic state `x`, listed from `x` onward. -/
def cycleFrom (t : List Nat) (x : Nat) : List Nat :=
  (List.range (periodOf t x)).map fun k => (fstep t)^[k] x

/-- The least element of a list of codes (0 on the empty list). -/
def listMin : List Nat → Nat
  | [] => 0
  | [x] => x
  | x :: y :: rest => min x (listMin (y :: rest))

/-- Modelled from the spec: the attractor a state eventually reaches
(source `AttractorFinder` module not in the snapshot), presented
canonically.  Iterating the successor `t.length` times from `c` lands in
the eventual cycle; the cycle is then listed starting from its least
state code, so that two states reach the same attractor exactly when
their canonical cycles are equal. -/
def canonCycle (t : List Nat) (c : Nat) : List Nat :=
  cycleFrom t (listMin (cycleFrom t ((fstep t)^[t.length] c)))

/-- Keep the first occurrence of each element, in first-occurrence order;
the fuel argument (any bound on the list length) makes the recursion
structural. -/
def dedupFirstAux : Nat → List (List Nat) → List (List Nat)
  | _, [] => []
  | 0, _ :: _ => []
  | fuel + 1, x :: xs => x :: dedupFirstAux fuel (xs.filter fun y => y ≠ x)

/-- Keep the first occurrence of each element, in first-occurrence
order. -/
def dedupFirst (xs : List (List Nat)) : List (List Nat) :=
  dedupFirstAux xs.length xs

/-- Modelled from the spec: `AttractorFinder.find_attractors` (source
module not in the snapshot) — scan the state codes in ascending order
0, 1, 2, … and record each attractor the first time its cycle is
discovered. -/
def attractorList (t : List Nat) : List (List Nat) :=
  dedupFirst ((List.range t.length).map (canonCycle t))

/-- Force the nodes of `K` to the values they hold in the reference state
`ref`; all other nodes keep their value from `s`. -/
def forceNodes (K : List Nat) (ref s : List Nat) : List Nat :=
  (List.range ref.length).map fun i => if i ∈ K then ref.getD i 0 else s.getD i 0

/-- Modelled from the spec: the per-subset test of the control-kernel
search (source `ControlKernelAnalyzer` module not in the snapshot).
`K` qualifies for attractor `A` when, from every one of the `2^n`
assignments of the remaining nodes, forcing the nodes of `K` to their
values in the reference state of `A` (the first state of its cycle)
puts the network in the basin of `A`. -/
def kernelQualifies (n : Nat) (t A K : List Nat) : Bool :=
  (List.range (2 ^ n)).all fun c =>
    canonCycle t (encode (forceNodes K (decode (A.getD 0 0) n) (decode c n))) == A

/-- All sublists of `l` of the given size, in lexicographic position
order. -/
def sublistsOfSize : Nat → List Nat → List (List Nat)
  | 0, _ => [[]]
  | _ + 1, [] => []
  | k + 1, x :: xs =>
    (sublistsOfSize k xs).map (fun K => x :: K) ++ sublistsOfSize (k + 1) xs

/-- Try subset sizes `k, k+1, …` while fuel lasts; at the first size with
a qualifying subset, return all qualifying subsets of that size. -/
def kernelSearchAux (n : Nat) (t A : List Nat) : Nat → Nat → List (List Nat)
  | _, 0 => []
  | k, fuel + 1 =>
    if ((sublistsOfSize k (List.range n)).filter (kernelQualifies n t A)).isEmpty then
      kernelSearchAux n t A (k + 1) fuel
    else
      (sublistsOfSize k (List.range n)).filter (kernelQualifies n t A)

/-- Modelled from the spec: the control-kernel search for one attractor
(source `ControlKernelAnalyzer` module not in the snapshot) — subsets of
node indices are tested in increasing size, and all qualifying subsets of
the smallest qualifying size are reported. -/
def findKernels (n : Nat) (t A : List Nat) : List (List Nat) :=
  kernelSearchAux n t A 0 (n + 1)

/-- Modelled from the spec: `TransitionGraphExplorer.explore` (source
module not in the snapshot) — the successor table
`code ↦ encode (update (decode code))` over all `2^n` state codes. -/
def succTable (n : Nat) (upd : List Nat → List Nat) : List Nat :=
  (List.range (2 ^ n)).map fun c => encode (upd (decode c n))

/-- The result of the composed analysis: the ordered attractor list and,
for each attractor in the same order, its minimal control kernels. -/
structure CKAnalysis where
  attractors : List (List Nat)
  control_kernels : List (List (List Nat))
  deriving DecidableEq

/-- Modelled from the spec: `ck_analysis` (source
`neet.controlkernel.control_kernel_analysis` module not in the snapshot) —
the composed entry point running exploration, attractor finding and the
control-kernel search in sequence. -/
def ck_analysis (n : Nat) (upd : List Nat → List Nat) : CKAnalysis :=
  let t := succTable n upd
  let as := attractorList t
  ⟨as, as.map (findKernels n t)⟩

/-- The index of the first occurrence of `a` in `xs` (the length of `xs`
when absent).  Applied to the scanned sequence of canonical cycles, it is
the first state code at which an attractor's cycle is discovered. -/
def firstIdx (xs : List (List Nat)) (a : List Nat) : Nat :=
  xs.findIdx fun y => y == a

theorem firstIdx_cons_self (a : List Nat) (l : List (List Nat)) :
    firstIdx (a :: l) a = 0 := by
  simp [firstIdx, List.findIdx_cons]

theorem firstIdx_cons_ne (a b : List Nat) (l : List (List Nat)) (h : a ≠ b) :
    firstIdx (a :: l) b = firstIdx l b + 1 := by
  have : (a == b) = false := beq_eq_false_iff_ne.mpr h
  simp [firstIdx, List.findIdx_cons, this]

theorem mem_of_mem_dedupFirstAux (fuel : Nat) :
    ∀ (xs : List (List Nat)) (a : List Nat),
      a ∈ dedupFirstAux fuel xs → a ∈ xs := by
  induction fuel with
  | zero =>
    intro xs a h
    cases xs <;> simp [dedupFirstAux] at h
  | succ fuel ih =>
    intro xs a h
    cases xs with
    | nil => simp [dedupFirstAux] at h
    | cons x tl =>
      rcases List.mem_cons.mp h with h | h
      · exact h ▸ List.mem_cons_self _ _
      · exact List.mem_cons_of_mem _ (List.mem_filter.mp (ih _ _ h)).1

theorem mem_of_mem_dedupFirst (xs : List (List Nat)) (a : List Nat)
    (h : a ∈ dedupFirst xs) : a ∈ xs :=
  mem_of_mem_dedupFirstAux xs.length xs a h

theorem firstIdx_filter_lt (P : List Nat → Bool) (l : List (List Nat))
    (a b : List Nat) (ha : P a = true) (hb : P b = true)
    (h : firstIdx (l.filter P) a < firstIdx (l.filter P) b) :
    firstIdx l a < firstIdx l b := by
  induction l with
  | nil => simp [firstIdx] at h
  | cons x tl ih =>
    by_cases hP : P x = true
    · rw [List.filter_cons_of_pos hP] at h
      by_cases hxa : x = a
      · subst hxa
        rw [firstIdx_cons_self] at h
        have hab : x ≠ b := by
          intro hxb; subst hxb; rw [firstIdx_cons_self] at h; omega
        rw [firstIdx_cons_self, firstIdx_cons_ne x b tl hab]
        omega
      · by_cases hxb : x = b
        · subst hxb
          rw [firstIdx_cons_self x (tl.filter P),
            firstIdx_cons_ne x a (tl.filter P) hxa] at h
          omega
        · rw [firstIdx_cons_ne x a (tl.filter P) hxa,
            firstIdx_cons_ne x b (tl.filter P) hxb] at h
          rw [firstIdx_cons_ne x a tl hxa, firstIdx_cons_ne x b tl hxb]
          have := ih (by omega)
          omega
    · rw [List.filter_cons_of_neg (by simpa using hP)] at h
      have hxa : x ≠ a := fun hx => hP (hx ▸ ha)
      have hxb : x ≠ b := fun hx => hP (hx ▸ hb)
      rw [firstIdx_cons_ne x a tl hxa, firstIdx_cons_ne x b tl hxb]
      have := ih h
      omega

theorem dedupFirstAux_pairwise (fuel : Nat) :
    ∀ xs : List (List Nat), xs.length ≤ fuel →
      (dedupFirstAux fuel xs).Pairwise fun a b => firstIdx xs a < firstIdx xs b := by
  induction fuel with
  | zero =>
    intro xs _
    cases xs with
    | nil => exact List.Pairwise.nil
    | cons x tl => exact List.Pairwise.nil
  | succ fuel ih =>
    intro xs hlen
    cases xs with
    | nil => exact List.Pairwise.nil
    | cons x tl =>
      refine List.Pairwise.cons ?_ ?_
      · intro b hb
        have hbf : b ∈ tl.filter (fun y => y ≠ x) :=
          mem_of_mem_dedupFirstAux _ _ _ hb
        have hbx : b ≠ x := by simpa using (List.mem_filter.mp hbf).2
        rw [firstIdx_cons_self, firstIdx_cons_ne x b tl (Ne.symm hbx)]
        omega
      · have hfl : (tl.filter (fun y => y ≠ x)).length ≤ fuel := by
          have h1 := List.length_filter_le (fun y => decide (y ≠ x)) tl
          simp only [List.length_cons] at hlen
          omega
        have ihp := ih (tl.filter (fun y => y ≠ x)) hfl
        rw [List.pairwise_iff_forall_sublist]
        intro a b hab
        have haf : a ∈ tl.filter (fun y => y ≠ x) :=
          mem_of_mem_dedupFirstAux _ _ _ (hab.subset (List.mem_cons_self _ _))
        have hbf : b ∈ tl.filter (fun y => y ≠ x) :=
          mem_of_mem_dedupFirstAux _ _ _
            (hab.subset (List.mem_cons_of_mem _ (List.mem_cons_self _ _)))
        have hax : a ≠ x := by simpa using (List.mem_filter.mp haf).2
        have hbx : b ≠ x := by simpa using (List.mem_filter.mp hbf).2
        have hrel : firstIdx (tl.filter (fun y => y ≠ x)) a <
            firstIdx (tl.filter (fun y => y ≠ x)) b :=
          List.pairwise_iff_forall_sublist.mp ihp hab
        have hxs : firstIdx tl a < firstIdx tl b :=
          firstIdx_filter_lt _ tl a b (by simpa using hax) (by simpa using hbx) hrel
        rw [firstIdx_cons_ne x a tl (Ne.symm hax),
          firstIdx_cons_ne x b tl (Ne.symm hbx)]
        omega

theorem dedupFirst_pairwise (xs : List (List Nat)) :
    (dedupFirst xs).Pairwise fun a b => firstIdx xs a < firstIdx xs b :=
  dedupFirstAux_pairwise xs.length xs (Nat.le_refl _)

/-- C6: the attractor list is ordered by first discovery during the
ascending scan over state codes — pairwise, an earlier attractor's cycle
is first produced at a strictly smaller state code than a later one's —
the ordering is identical across repeated runs (the analysis is a pure
function), and on the scenario-2 weight-threshold network the scan yields
the attractors at encoded states 7, then 4, then 5. -/
theorem attractor_discovery_order :
    (∀ t : List Nat, (attractorList t).Pairwise fun A B =>
        firstIdx ((List.range t.length).map (canonCycle t)) A <
        firstIdx ((List.range t.length).map (canonCycle t)) B) ∧
    (∀ t : List Nat, attractorList t = attractorList t) ∧
    (ck_analysis 3 net2.update).attractors = [[7], [4], [5]] := by
  refine ⟨fun t => dedupFirst_pairwise _, fun t => rfl, ?_⟩
  decide

/-- C1: building the transition network from `[0,1,2,3,0,1,2,3]` succeeds
with `N = 3`, and the composed analysis returns exactly the 4 attractors
at encoded states 0, 1, 2, 3 — each of period 1 — with control kernel
`{0, 1}` reported for every one of them. -/
theorem net3_analysis :
    transitions_to_net [0, 1, 2, 3, 0, 1, 2, 3] = Except.ok net3 ∧
    (ck_analysis 3 net3.update).attractors = [[0], [1], [2], [3]] ∧
    ((ck_analysis 3 net3.update).attractors.all fun A => A.length == 1) = true ∧
    (ck_analysis 3 net3.update).control_kernels =
      [[[0, 1]], [[0, 1]], [[0, 1]], [[0, 1]]] := by
  refine ⟨?_, by decide, by decide, by decide⟩
  rfl

/-- C10: the analysis of the scenario-1 logic network finds exactly one
attractor, the fixed point at encoded state 5; every one of the 8 states
eventually reaches it; and the reported control kernel is the empty set. -/
theorem net1_analysis :
    (ck_analysis 3 net1.update).attractors = [[5]] ∧
    ((List.range (2 ^ 3)).all fun c =>
        canonCycle (succTable 3 net1.update) c == [5]) = true ∧
    (ck_analysis 3 net1.update).control_kernels = [[[]]] := by
  refine ⟨by decide, by decide, by decide⟩

theorem mem_sublistsOfSize :
    ∀ (k : Nat) (l K : List Nat),
      K ∈ sublistsOfSize k l ↔ K.Sublist l ∧ K.length = k := by
  intro k l
  induction l generalizing k with
  | nil =>
    intro K
    cases k with
    | zero =>
      simp only [sublistsOfSize, List.mem_singleton]
      constructor
      · rintro rfl; exact ⟨List.Sublist.refl _, rfl⟩
      · rintro ⟨hs, _⟩; exact List.sublist_nil.mp hs
    | succ k =>
      simp only [sublistsOfSize, List.not_mem_nil, false_iff]
      rintro ⟨hs, hl⟩
      rw [List.sublist_nil.mp hs] at hl
      simp at hl
  | cons x xs ih =>
    intro K
    cases k with
    | zero =>
      simp only [sublistsOfSize, List.mem_singleton]
      constructor
      · rintro rfl; exact ⟨List.nil_sublist _, rfl⟩
      · rintro ⟨_, hl⟩; exact List.length_eq_zero.mp hl
    | succ k =>
      simp only [sublistsOfSize, List.mem_append, List.mem_map]
      constructor
      · rintro (⟨K', hK', rfl⟩ | hK)
        · obtain ⟨hs, hl⟩ := (ih k K').mp hK'
          exact ⟨hs.cons₂ x, by simp [hl]⟩
        · obtain ⟨hs, hl⟩ := (ih (k + 1) K).mp hK
          exact ⟨hs.cons x, hl⟩
      · rintro ⟨hs, hl⟩
        rcases List.sublist_cons_iff.mp hs with h | ⟨r, rfl, hr⟩
        · exact Or.inr ((ih (k + 1) K).mpr ⟨h, hl⟩)
        · exact Or.inl ⟨r, (ih k r).mpr ⟨hr, by simpa using hl⟩, rfl⟩

theorem kernelSearchAux_sound (n : Nat) (t A : List Nat) :
    ∀ (fuel k : Nat) (K : List Nat), K ∈ kernelSearchAux n t A k fuel →
      kernelQualifies n t A K = true ∧ K.Sublist (List.range n) ∧
      ∀ K', K'.Sublist (List.range n) → k ≤ K'.length → K'.length < K.length →
        kernelQualifies n t A K' = false := by
  intro fuel
  induction fuel with
  | zero => intro k K h; simp [kernelSearchAux] at h
  | succ fuel ih =>
    intro k K h
    rw [kernelSearchAux] at h
    by_cases hqs :
        ((sublistsOfSize k (List.range n)).filter (kernelQualifies n t A)).isEmpty
    · rw [if_pos hqs] at h
      obtain ⟨hq, hsub, hmin⟩ := ih (k + 1) K h
      refine ⟨hq, hsub, fun K' hs' hk' hlen => ?_⟩
      rcases Nat.eq_or_lt_of_le hk' with heq | hlt
      · cases hq' : kernelQualifies n t A K' with
        | false => rfl
        | true =>
          exfalso
          have hmem : K' ∈ (sublistsOfSize k (List.range n)).filter
              (kernelQualifies n t A) :=
            List.mem_filter.mpr ⟨(mem_sublistsOfSize k _ K').mpr ⟨hs', heq.symm⟩, hq'⟩
          rw [List.isEmpty_iff.mp hqs] at hmem
          exact List.not_mem_nil _ hmem
      · exact hmin K' hs' hlt hlen
    · rw [if_neg hqs] at h
      have h2 := List.mem_filter.mp h
      obtain ⟨hsub, hlen⟩ := (mem_sublistsOfSize k _ K).mp h2.1
      exact ⟨h2.2, hsub, fun K' _ hk' hlen' => by omega⟩

theorem kernelSearchAux_complete (n : Nat) (t A : List Nat) :
    ∀ (fuel k : Nat) (K : List Nat), K.Sublist (List.range n) →
      kernelQualifies n t A K = true → k ≤ K.length → K.length < k + fuel →
      (∀ K', K'.Sublist (List.range n) → k ≤ K'.length → K'.length < K.length →
        kernelQualifies n t A K' = false) →
      K ∈ kernelSearchAux n t A k fuel := by
  intro fuel
  induction fuel with
  | zero => intro k K _ _ hk hlt _; omega
  | succ fuel ih =>
    intro k K hsub hq hk hlt hmin
    rw [kernelSearchAux]
    by_cases hqs :
        ((sublistsOfSize k (List.range n)).filter (kernelQualifies n t A)).isEmpty
    · rw [if_pos hqs]
      have hne : K.length ≠ k := by
        intro heq
        have hmem : K ∈ (sublistsOfSize k (List.range n)).filter
            (kernelQualifies n t A) :=
          List.mem_filter.mpr ⟨(mem_sublistsOfSize k _ K).mpr ⟨hsub, heq⟩, hq⟩
        rw [List.isEmpty_iff.mp hqs] at hmem
        exact List.not_mem_nil _ hmem
      exact ih (k + 1) K hsub hq (by omega) (by omega)
        (fun K' h1 h2 h3 => hmin K' h1 (by omega) h3)
    · rw [if_neg hqs]
      have hlen : K.length = k := by
        by_contra hne
        have hkk : k < K.length := by omega
        have hnil :
            (sublistsOfSize k (List.range n)).filter (kernelQualifies n t A) ≠ [] := by
          simpa [List.isEmpty_iff] using hqs
        obtain ⟨K₀, hK₀⟩ := List.exists_mem_of_ne_nil _ hnil
        have h2 := List.mem_filter.mp hK₀
        obtain ⟨hsub₀, hlen₀⟩ := (mem_sublistsOfSize k _ K₀).mp h2.1
        have hfalse := hmin K₀ hsub₀ (by omega) (by omega)
        rw [hfalse] at h2
        exact Bool.false_ne_true h2.2
      exact List.mem_filter.mpr ⟨(mem_sublistsOfSize k _ K).mpr ⟨hsub, hlen⟩, hq⟩

/-- C3: the control-kernel search reports, for each attractor, exactly
the qualifying subsets of the smallest qualifying size — every reported
subset qualifies and is minimal (no proper subset qualifies), and,
conversely, every qualifying subset such that no strictly smaller subset
of the node set qualifies is in the report; so all minimal kernels at the
smallest qualifying size are returned, not merely one of them. -/
theorem ck_reports_all_minimal_kernels (n : Nat) (t A K : List Nat) :
    (K ∈ findKernels n t A →
       kernelQualifies n t A K = true ∧
       ∀ K', K'.Sublist K → K' ≠ K → kernelQualifies n t A K' = false) ∧
    (K.Sublist (List.range n) → kernelQualifies n t A K = true →
       (∀ k' < K.length, ∀ K' ∈ sublistsOfSize k' (List.range n),
          kernelQualifies n t A K' = false) →
       K ∈ findKernels n t A) := by
  constructor
  · intro hK
    obtain ⟨hq, hsub, hmin⟩ := kernelSearchAux_sound n t A (n + 1) 0 K hK
    refine ⟨hq, fun K' hsubK hne => ?_⟩
    have hle : K'.length ≤ K.length := hsubK.length_le
    have hlt : K'.length < K.length := by
      rcases Nat.eq_or_lt_of_le hle with heq | hlt
      · exact absurd (hsubK.eq_of_length heq) hne
      · exact hlt
    exact hmin K' (hsubK.trans hsub) (Nat.zero_le _) hlt
  · intro hsub hq hmins
    have hlt : K.length < 0 + (n + 1) := by
      have := hsub.length_le
      simp only [List.length_range] at this
      omega
    exact kernelSearchAux_complete n t A (n + 1) 0 K hsub hq (Nat.zero_le _) hlt
      (fun K' hsub' _ hlen =>
        hmins K'.length hlen K' ((mem_sublistsOfSize K'.length _ K').mpr ⟨hsub', rfl⟩))

theorem ck_reports_all_minimal_kernels_witness :
    ([0, 1] ∈ findKernels 3 (succTable 3 net3.update) [0]) ∧
    kernelQualifies 3 (succTable 3 net3.update) [0] [0, 1] = true :=
  have h := ck_reports_all_minimal_kernels 3 (succTable 3 net3.update) [0] [0, 1]
  have hm : [0, 1] ∈ findKernels 3 (succTable 3 net3.update) [0] :=
    h.2 (by decide) (by decide) (by decide)
  ⟨hm, (h.1 hm).1⟩

theorem getD_lt_two (l : List Nat) (h : ∀ b ∈ l, b < 2) (i : Nat) :
    l.getD i 0 < 2 := by
  by_cases hi : i < l.length
  · rw [List.getD_eq_getElem?_getD, List.getElem?_eq_getElem hi]
    exact h _ (List.getElem_mem hi)
  · rw [List.getD_eq_getElem?_getD, List.getElem?_eq_none (by omega)]
    simp

theorem forceNodes_length (K ref s : List Nat) :
    (forceNodes K ref s).length = ref.length := by
  simp [forceNodes]

theorem forceNodes_bits (K ref s : List Nat) (href : ∀ b ∈ ref, b < 2)
    (hs : ∀ b ∈ s, b < 2) : ∀ b ∈ forceNodes K ref s, b < 2 := by
  intro b hb
  obtain ⟨i, _, hi⟩ := List.mem_map.mp hb
  rw [← hi]
  by_cases hK : i ∈ K
  · rw [if_pos hK]; exact getD_lt_two ref href i
  · rw [if_neg hK]; exact getD_lt_two s hs i

theorem fstep_lt (t : List Nat) (hval : ∀ y ∈ t, y < t.length)
    (h0 : 0 < t.length) (c : Nat) : fstep t c < t.length := by
  unfold fstep
  by_cases hc : c < t.length
  · rw [List.getD_eq_getElem?_getD, List.getElem?_eq_getElem hc]
    exact hval _ (List.getElem_mem hc)
  · rw [List.getD_eq_getElem?_getD, List.getElem?_eq_none (by omega)]
    simpa using h0

theorem fstep_iterate_lt (t : List Nat) (hval : ∀ y ∈ t, y < t.length)
    (h0 : 0 < t.length) (x : Nat) (hx : x < t.length) :
    ∀ k, (fstep t)^[k] x < t.length := by
  intro k
  induction k with
  | zero => exact hx
  | succ k ih =>
    rw [Function.iterate_succ_apply']
    exact fstep_lt t hval h0 _

theorem exists_periodic (t : List Nat) (hval : ∀ y ∈ t, y < t.length)
    (h0 : 0 < t.length) (x : Nat) (hx : x < t.length) :
    ∃ d, 1 ≤ d ∧ d ≤ t.length ∧
      (fstep t)^[d] ((fstep t)^[t.length] x) = (fstep t)^[t.length] x := by
  have hiter := fstep_iterate_lt t hval h0 x hx
  obtain ⟨i, j, hne, heq⟩ :=
    Fintype.exists_ne_map_eq_of_card_lt
      (fun i : Fin (t.length + 1) => (⟨(fstep t)^[i.val] x, hiter i.val⟩ : Fin t.length))
      (by simp)
  have hvals : (fstep t)^[i.val] x = (fstep t)^[j.val] x := congrArg Fin.val heq
  obtain ⟨a, b, hab, hbM, he⟩ :
      ∃ a b : Nat, a < b ∧ b ≤ t.length ∧ (fstep t)^[a] x = (fstep t)^[b] x := by
    rcases Nat.lt_trichotomy i.val j.val with h | h | h
    · exact ⟨i.val, j.val, h, Nat.lt_succ_iff.mp j.isLt, hvals⟩
    · exact absurd (Fin.ext h) hne
    · exact ⟨j.val, i.val, h, Nat.lt_succ_iff.mp i.isLt, hvals.symm⟩
  refine ⟨b - a, by omega, by omega, ?_⟩
  have h1 : (fstep t)^[t.length] x = (fstep t)^[t.length + (b - a)] x := by
    have e1 : (fstep t)^[t.length - a + a] x =
        (fstep t)^[t.length - a] ((fstep t)^[a] x) :=
      Function.iterate_add_apply _ _ _ _
    have e2 : (fstep t)^[t.length - a + b] x =
        (fstep t)^[t.length - a] ((fstep t)^[b] x) :=
      Function.iterate_add_apply _ _ _ _
    have ea : t.length - a + a = t.length := by omega
    have eb : t.length - a + b = t.length + (b - a) := by omega
    rw [ea] at e1
    rw [eb] at e2
    rw [e1, he, ← e2]
  calc (fstep t)^[b - a] ((fstep t)^[t.length] x)
      = (fstep t)^[b - a + t.length] x := (Function.iterate_add_apply _ _ _ _).symm
    _ = (fstep t)^[t.length + (b - a)] x := by rw [Nat.add_comm]
    _ = (fstep t)^[t.length] x := h1.symm

theorem periodOf_spec (t : List Nat) (x d : Nat) (h1 : 1 ≤ d)
    (h2 : d ≤ t.length) (hper : (fstep t)^[d] x = x) :
    0 < periodOf t x ∧ (fstep t)^[periodOf t x] x = x ∧ periodOf t x ≤ t.length := by
  have hsome : ((List.range t.length).find?
      (fun k => (fstep t)^[k + 1] x == x)).isSome := by
    refine List.find?_isSome.mpr ⟨d - 1, List.mem_range.mpr (by omega), ?_⟩
    have hc : d - 1 + 1 = d := by omega
    simp [hc, hper]
  obtain ⟨k₀, hk₀⟩ := Option.isSome_iff_exists.mp hsome
  have hp := List.find?_some hk₀
  have hmem := List.mem_of_find?_eq_some hk₀
  have hpeq : periodOf t x = k₀ + 1 := by
    unfold periodOf
    rw [hk₀]
  have hrange := List.mem_range.mp hmem
  refine ⟨by omega, ?_, by omega⟩
  rw [hpeq]
  simpa using hp

theorem listMin_mem : ∀ l : List Nat, l ≠ [] → listMin l ∈ l := by
  intro l
  induction l with
  | nil => intro h; exact absurd rfl h
  | cons x tl ih =>
    intro _
    cases tl with
    | nil => simp [listMin]
    | cons y rest =>
      rcases min_choice x (listMin (y :: rest)) with h | h
      · rw [show listMin (x :: y :: rest) = min x (listMin (y :: rest)) from rfl, h]
        exact List.mem_cons_self _ _
      · rw [show listMin (x :: y :: rest) = min x (listMin (y :: rest)) from rfl, h]
        exact List.mem_cons_of_mem _ (ih (List.cons_ne_nil _ _))

theorem mem_cycleFrom_self (t : List Nat) (x : Nat) (hpos : 0 < periodOf t x) :
    x ∈ cycleFrom t x :=
  List.mem_map.mpr ⟨0, List.mem_range.mpr hpos, rfl⟩

theorem iterate_point_periodic (f : Nat → Nat) (y p k : Nat)
    (hp : f^[p] y = y) : f^[p] (f^[k] y) = f^[k] y := by
  rw [← Function.iterate_add_apply]
  have hc : p + k = k + p := Nat.add_comm p k
  rw [hc, Function.iterate_add_apply, hp]

theorem exists_iterate_mem_canonCycle (t : List Nat) (h0 : 0 < t.length)
    (hval : ∀ y ∈ t, y < t.length) (x : Nat) (hx : x < t.length) :
    ∃ m, (fstep t)^[m] x ∈ canonCycle t x := by
  obtain ⟨d, hd1, hd2, hper⟩ := exists_periodic t hval h0 x hx
  obtain ⟨hppos, hpfix, hple⟩ :=
    periodOf_spec t ((fstep t)^[t.length] x) d hd1 hd2 hper
  have hcne : cycleFrom t ((fstep t)^[t.length] x) ≠ [] := by
    apply List.ne_nil_of_length_pos
    simpa [cycleFrom] using hppos
  have hmn := listMin_mem _ hcne
  obtain ⟨k, hk_mem, hk_eq⟩ := List.mem_map.mp hmn
  have hmper : (fstep t)^[periodOf t ((fstep t)^[t.length] x)]
      (listMin (cycleFrom t ((fstep t)^[t.length] x))) =
      listMin (cycleFrom t ((fstep t)^[t.length] x)) := by
    rw [← hk_eq]
    exact iterate_point_periodic (fstep t) _ _ k hpfix
  have hm2 := periodOf_spec t
    (listMin (cycleFrom t ((fstep t)^[t.length] x)))
    (periodOf t ((fstep t)^[t.length] x)) (by omega) hple hmper
  refine ⟨k + t.length, ?_⟩
  rw [Function.iterate_add_apply, hk_eq]
  exact mem_cycleFrom_self t _ hm2.1

/-- C8: soundness of reported control kernels, over every successor
table (hence every network): for every attractor `A` of the analysis,
every kernel `K` reported for `A`, and every one of the `2^N`
assignments of the remaining nodes, forcing the nodes of `K` to their
values in the reference state of `A` and iterating the synchronous
update leads the trajectory into the cycle of `A`. -/
theorem control_kernel_soundness (n : Nat) (t : List Nat)
    (ht : t.length = 2 ^ n) (hval : ∀ y ∈ t, y < t.length)
    (A K : List Nat) (_hA : A ∈ attractorList t)
    (hK : K ∈ findKernels n t A) (c : Nat) (hc : c < 2 ^ n) :
    ∃ m, (fstep t)^[m]
        (encode (forceNodes K (decode (A.getD 0 0) n) (decode c n))) ∈ A := by
  have hq := (kernelSearchAux_sound n t A (n + 1) 0 K hK).1
  have hxlt : encode (forceNodes K (decode (A.getD 0 0) n) (decode c n)) < t.length := by
    rw [ht]
    have hbits : ∀ b ∈ forceNodes K (decode (A.getD 0 0) n) (decode c n), b < 2 :=
      forceNodes_bits _ _ _ (decode_bits_lt _ _) (decode_bits_lt _ _)
    have hlen : (forceNodes K (decode (A.getD 0 0) n) (decode c n)).length = n := by
      rw [forceNodes_length, decode_length]
    have henc := encode_lt _ hbits
    rw [hlen] at henc
    exact henc
  have h0 : 0 < t.length := by
    rw [ht]
    exact Nat.pos_pow_of_pos n (by omega)
  obtain ⟨m, hm⟩ := exists_iterate_mem_canonCycle t h0 hval _ hxlt
  have hAx : canonCycle t
      (encode (forceNodes K (decode (A.getD 0 0) n) (decode c n))) = A := by
    have hall := (List.all_eq_true.mp hq) c (List.mem_range.mpr hc)
    exact beq_iff_eq.mp hall
  rw [hAx] at hm
  exact ⟨m, hm⟩

theorem control_kernel_soundness_witness :
    ∃ m, (fstep (succTable 3 net2.update))^[m]
        (encode (forceNodes [1] (decode 7 3) (decode 0 3))) ∈ [7] :=
  control_kernel_soundness 3 (succTable 3 net2.update) (by decide) (by decide)
    [7] [1] (by decide) (by decide) 0 (by decide)

/-- C7: `encode` and `decode` are mutually inverse between length-`N`
bit lists and codes in `[0, 2^N)`: `encode (decode c N) = c` for every
code `c < 2^N`, and `decode (encode s) N = s` for every length-`N` state
over `{0,1}`. -/
theorem codec_roundtrip (n c : Nat) (s : List Nat) (hc : c < 2 ^ n)
    (hs : s.length = n) (hb : ∀ b ∈ s, b < 2) :
    encode (decode c n) = c ∧ decode (encode s) n = s :=
  ⟨encode_decode n c hc, hs ▸ decode_encode s hb⟩

theorem codec_roundtrip_witness :
    encode (decode 5 3) = 5 ∧ decode (encode [1, 0, 1]) 3 = [1, 0, 1] :=
  codec_roundtrip 3 5 [1, 0, 1] (by decide) (by decide) (by decide)

/-- C5: on the scenario-1 logic network, `update [0,0,1] = [1,0,1]`, and
node by node the next value is 1 exactly when the declared inputs' current
values, read in declared order, form an accepted combination (node 0 reads
inputs 1,2 as `[0,1]`, accepted; node 1 reads inputs 0,1 as `[0,0]`, not
accepted; node 2 reads input 1 as `[0]`, accepted). -/
theorem net1_update_001 :
    net1.update [0, 0, 1] = [1, 0, 1] ∧
      (((net1.update [0, 0, 1]).getD 0 0 = 1 ↔ [0, 1] ∈ [[0, 0], [0, 1]]) ∧
       ((net1.update [0, 0, 1]).getD 1 0 = 1 ↔ [0, 0] ∈ [[1, 1]]) ∧
       ((net1.update [0, 0, 1]).getD 2 0 = 1 ↔ [0] ∈ [[0]])) := by
  decide

/-- C4: on the scenario-2 weight-threshold network, `update [0,0,1]`
returns `[0,0,1]`; the state is a fixed point of the synchronous update. -/
theorem net2_update_001 : net2.update [0, 0, 1] = [0, 0, 1] := by decide

theorem wt_update_getD (net : WTNetwork) (s : List Nat) (j : Nat)
    (hj : j < net.thresholds.length) :
    (net.update s).getD j 0 =
      if net.thresholds.getD j 0 < wtSum (net.weights.getD j []) s then 1
      else if wtSum (net.weights.getD j []) s < net.thresholds.getD j 0 then 0
      else s.getD j 0 := by
  unfold WTNetwork.update
  simp [List.getD_eq_getElem?_getD, List.getElem?_map, List.getElem?_range, hj]

/-- C2 (counterexample): the claimed rule fails on the scenario-2 network
at state `[0,0,1]`, node `j = 2`.  The code's value is 1, yet the claim's
weighted sum `Σ_i weight[i][2]·state[i]` (column orientation, computed by
the fold below) does not strictly exceed `threshold[2]`, so the claimed
iff — with 0 on a tie — would force the value 0; moreover even the row
sum ties with the threshold, so the node's value 1 can only come from
keeping the current state, not from the claimed "inactive on tie" rule
under either orientation. -/
theorem wt_claim_counterexample :
    (net2.update [0, 0, 1]).getD 2 0 = 1 ∧
    ¬ (net2.thresholds.getD 2 0 <
        (List.range 3).foldr
          (fun i acc =>
            (net2.weights.getD i []).getD 2 0 * (([0, 0, 1].getD i 0 : Nat) : Int) + acc)
          0) ∧
    wtSum (net2.weights.getD 2 []) [0, 0, 1] = net2.thresholds.getD 2 0 := by
  refine ⟨by decide, by decide, by decide⟩

/-- C2 (amended): for every weight-threshold network, state and in-range
node `j`, the next value of node `j` is determined by the weighted sum of
row `j` of the weight matrix, `Σ_i weight[j][i]·state[i]`: strictly above
`threshold[j]` the node becomes 1, strictly below it becomes 0, and on a
tie (sum exactly equal to the threshold) the node keeps its current
value `state[j]`. -/
theorem wt_update_rule (net : WTNetwork) (s : List Nat) (j : Nat)
    (hj : j < net.thresholds.length) :
    (net.thresholds.getD j 0 < wtSum (net.weights.getD j []) s →
       (net.update s).getD j 0 = 1) ∧
    (wtSum (net.weights.getD j []) s < net.thresholds.getD j 0 →
       (net.update s).getD j 0 = 0) ∧
    (wtSum (net.weights.getD j []) s = net.thresholds.getD j 0 →
       (net.update s).getD j 0 = s.getD j 0) := by
  refine ⟨fun h => ?_, fun h => ?_, fun h => ?_⟩ <;>
    rw [wt_update_getD net s j hj]
  · rw [if_pos h]
  · rw [if_neg (by omega), if_pos h]
  · rw [if_neg (by omega), if_neg (by omega)]

theorem wt_update_rule_witness :
    (net2.update [0, 1, 0]).getD 0 0 = 1 ∧
    (net2.update [0, 0, 1]).getD 1 0 = 0 ∧
    (net2.update [0, 0, 1]).getD 2 0 = [0, 0, 1].getD 2 0 :=
  ⟨(wt_update_rule net2 [0, 1, 0] 0 (by decide)).1 (by decide),
   (wt_update_rule net2 [0, 0, 1] 1 (by decide)).2.1 (by decide),
   (wt_update_rule net2 [0, 0, 1] 2 (by decide)).2.2 (by decide)⟩

/-- C9: `transitions_to_net` on a list of in-range entries succeeds
exactly on power-of-two lengths: when the length is `2^n` it returns the
`TransitionNetwork` with inferred node count `n` wrapping the list, and
for every length that is no power of two it fails with a
`ValidationError` — at construction, before any update is attempted. -/
theorem transitions_to_net_spec (l : List Nat) (hval : ∀ x ∈ l, x < l.length) :
    (∀ n, l.length = 2 ^ n → transitions_to_net l = Except.ok ⟨n, l⟩) ∧
    ((∀ n, l.length ≠ 2 ^ n) →
       transitions_to_net l = Except.error NeetError.validationError) := by
  constructor
  · intro n hn
    have hmem : n ∈ List.range (l.length + 1) := by
      refine List.mem_range.mpr ?_
      have := Nat.lt_two_pow n
      omega
    have hsome : ((List.range (l.length + 1)).find?
        (fun m => 2 ^ m == l.length)).isSome :=
      List.find?_isSome.mpr ⟨n, hmem, by simp [hn]⟩
    obtain ⟨k, hk⟩ := Option.isSome_iff_exists.mp hsome
    have hpk0 := List.find?_some hk
    have hpk : (2 : Nat) ^ k = l.length := by simpa using hpk0
    have hkn : k = n := by
      have h2 : (2 : Nat) ^ k = 2 ^ n := by omega
      exact Nat.pow_right_injective (Nat.le_refl 2) h2
    subst hkn
    unfold transitions_to_net
    rw [hk]
    exact if_pos hval
  · intro hno
    unfold transitions_to_net
    cases hfind : (List.range (l.length + 1)).find? (fun m => 2 ^ m == l.length) with
    | none => rfl
    | some k =>
      have hpk0 := List.find?_some hfind
      have hpk : (2 : Nat) ^ k = l.length := by simpa using hpk0
      exact absurd hpk.symm (hno k)

theorem transitions_to_net_spec_witness :
    transitions_to_net [0, 1] = Except.ok ⟨1, [0, 1]⟩ ∧
    transitions_to_net [0, 0, 0] = Except.error NeetError.validationError :=
  ⟨(transitions_to_net_spec [0, 1] (by decide)).1 1 (by decide),
   (transitions_to_net_spec [0, 0, 0] (by decide)).2 (fun n => by
      rcases n with _ | _ | m
      · decide
      · decide
      · have h4 : (4 : Nat) ≤ 2 ^ (m + 2) := by
          calc (4 : Nat) = 2 ^ 2 := rfl
            _ ≤ 2 ^ (m + 2) := Nat.pow_le_pow_right (by omega) (by omega)
        simp only [List.length_cons, List.length_nil]
        omega)⟩

end Neet
